import Mathlib

/-!
# Spectrogram viewer: colour mapper, viewport algebra, selection layer, spectrogram builder

A shallow embedding of `main.go`.  In the colour mapper, the viewport algebra and the
selection layer Go's `float32`/`float64` values are modelled by exact rationals (`ℚ`),
Go's `int` by `ℤ`, and `uint8` by a natural number obtained by truncation followed by
reduction modulo `256`.  Pointers to `viewport` values are modelled by addresses into an
explicit store, so that the in-place updates performed by `subview` (and the possibility
that both pointers name the same cell) are visible.  Where a result depends on the
rounding of a `float64` product, the rounding is a parameter (`hslColorWith`).  The
event loop hands to its switch only the events that pass the filter of `gtx.Event`.

In the spectrogram builder the sizes and start indices are integers, with the product of
the start-index computation reduced to a `w`-bit machine integer; the window, the
analysis frame, the transform and the intensity are modelled over the real and complex
numbers, with `gofft.FFT` taken to be the discrete Fourier transform.
-/

namespace BatDesktop

/-! ## Data model -/

/-- The type `f32.Point`: a pair of reals, here exact rationals. -/
structure F32Point where
  X : ℚ
  Y : ℚ
deriving DecidableEq, Repr

/-- The type `viewport` (main.go, lines 177-180). -/
structure viewport where
  offset : F32Point
  size : F32Point
deriving DecidableEq, Repr

/-- Addresses of `viewport` cells. -/
abbrev Ptr := Nat

/-- A store maps every address to the `viewport` value held there. -/
abbrev Store := Ptr → viewport

/-- Overwrite one cell of the store. -/
def Store.write (σ : Store) (p : Ptr) (x : viewport) : Store :=
  fun r => if r = p then x else σ r

/-- The method `(v *viewport) subview(other *viewport)` (main.go, lines 186-191): four
assignments through the pointer `v`, executed in order, each reading the current store. -/
def subview (σ : Store) (v other : Ptr) : Store :=
  -- v.offset.X += other.offset.X * v.size.X
  let σ1 := σ.write v
    { σ v with offset := { (σ v).offset with X := (σ v).offset.X + (σ other).offset.X * (σ v).size.X } }
  -- v.offset.Y += other.offset.Y * v.size.Y
  let σ2 := σ1.write v
    { σ1 v with offset := { (σ1 v).offset with Y := (σ1 v).offset.Y + (σ1 other).offset.Y * (σ1 v).size.Y } }
  -- v.size.X *= other.size.X
  let σ3 := σ2.write v
    { σ2 v with size := { (σ2 v).size with X := (σ2 v).size.X * (σ2 other).size.X } }
  -- v.size.Y *= other.size.Y
  let σ4 := σ3.write v
    { σ3 v with size := { (σ3 v).size with Y := (σ3 v).size.Y * (σ3 other).size.Y } }
  σ4

/-- A store holding `a` at address `0` and `b` everywhere else. -/
def store2 (a b : viewport) : Store :=
  fun r => if r = 0 then a else b

/-- The value left in the receiver when `subview` is called with the receiver holding
`base` and a separately allocated argument holding `refinement`. -/
def compose (base refinement : viewport) : viewport :=
  subview (store2 base refinement) 0 1 0

/-- The viewport `{offset:(0,0), size:(1,1)}`. -/
def identity : viewport := { offset := ⟨0, 0⟩, size := ⟨1, 1⟩ }

/-! ## Colour mapper -/

/-- The function `hue2rgb` (main.go, lines 25-42): `t` is adjusted by two successive
`if` statements, then four cases are tried in order. -/
def hue2rgb (p q t : ℚ) : ℚ :=
  let t1 := if t < 0 then t + 1 else t
  let t2 := if t1 > 1 then t1 - 1 else t1
  if t2 < 1 / 6 then p + (q - p) * 6 * t2
  else if t2 < 1 / 2 then q
  else if t2 < 2 / 3 then p + (q - p) * (2 / 3 - t2) * 6
  else p

/-- Conversion of a real to an integer as Go does it: the fraction is discarded
(truncation towards zero). -/
def truncate (x : ℚ) : ℤ := if 0 ≤ x then ⌊x⌋ else ⌈x⌉

/-- Conversion `(uint8)(x)` of a real: truncation, then reduction into `0..255`. -/
def toUint8 (x : ℚ) : ℕ := (truncate x % 256).toNat

/-- The type `color.RGBA`: four 8-bit channels. -/
structure RGBA where
  R : ℕ
  G : ℕ
  B : ℕ
  A : ℕ
deriving DecidableEq, Repr

/-- The channel intensities `(r, g, b)` computed by `hsl_to_color` before they are
scaled by `255` (main.go, lines 45-67). -/
def hslChannels (h s l : ℚ) : ℚ × ℚ × ℚ :=
  if s = 0 then (l, l, l)
  else
    let q := if l < 1 / 2 then l * (1 + s) else l + s - l * s
    let p := 2 * l - q
    (hue2rgb p q (h + 1 / 3), hue2rgb p q h, hue2rgb p q (h - 1 / 3))

/-- The function `hsl_to_color` (main.go, lines 44-70), in exact arithmetic. -/
def hsl_to_color (h s l : ℚ) : RGBA :=
  let c := hslChannels h s l
  { R := toUint8 (c.1 * 255), G := toUint8 (c.2.1 * 255), B := toUint8 (c.2.2 * 255), A := 255 }

/-- The return statement of `hsl_to_color` (main.go, line 69) with the rounding of the
three `float64` products `r * 255`, `g * 255`, `b * 255` made explicit: `rnd` maps the
exact product to the `float64` value the code converts to `uint8`.  With `rnd` the
identity this is `hsl_to_color`.  For `s == 0` the code does no other arithmetic
(`r = g = b = l`), so for a `float64` lightness this is the computation of the code. -/
def hslColorWith (rnd : ℚ → ℚ) (h s l : ℚ) : RGBA :=
  let c := hslChannels h s l
  { R := toUint8 (rnd (c.1 * 255)), G := toUint8 (rnd (c.2.1 * 255)),
    B := toUint8 (rnd (c.2.2 * 255)), A := 255 }

/-- The wrapping of `t` performed at the start of `hue2rgb`, as one expression. -/
def wrapT (t : ℚ) : ℚ := if t < 0 then t + 1 else if t > 1 then t - 1 else t

/-- The hue-to-channel function as the specification words it: after wrapping, `p` if
`t < 1/6`, `q` if `t < 1/2`, `p + (q-p)*(2/3-t)*6` if `t < 2/3`, else `p`. -/
def hue2rgbSpec (p q t : ℚ) : ℚ :=
  if wrapT t < 1 / 6 then p
  else if wrapT t < 1 / 2 then q
  else if wrapT t < 2 / 3 then p + (q - p) * (2 / 3 - wrapT t) * 6
  else p

/-! ## Selection layer -/

/-- The type `image.Point`: integer pixel coordinates. -/
structure ImagePoint where
  X : ℤ
  Y : ℤ
deriving DecidableEq, Repr

/-- The type `image.Rectangle`. -/
structure Rectangle where
  Min : ImagePoint
  Max : ImagePoint
deriving DecidableEq, Repr

/-- The method `Rectangle.Dx`: the width `Max.X - Min.X`. -/
def Rectangle.Dx (r : Rectangle) : ℤ := r.Max.X - r.Min.X

/-- The method `Rectangle.Dy`: the height `Max.Y - Min.Y`. -/
def Rectangle.Dy (r : Rectangle) : ℤ := r.Max.Y - r.Min.Y

/-- The zero value `image.Rectangle{}`. -/
def Rectangle.zero : Rectangle := ⟨⟨0, 0⟩, ⟨0, 0⟩⟩

/-- The kinds of pointer event (`pointer.Kind`). -/
inductive Kind where
  | Cancel | Press | Release | Move | Drag | Enter | Leave | Scroll
deriving DecidableEq, Repr

/-- A `pointer.Event`: its kind and its position. -/
structure PointerEvent where
  kind : Kind
  Position : F32Point
deriving DecidableEq, Repr

/-- An event delivered to the layer: a pointer event, or an event of some other type. -/
inductive Event where
  | pointer (e : PointerEvent)
  | other
deriving DecidableEq, Repr

/-- The package-level variables `selected`, `selecting` and `view` (`none` is `nil`). -/
structure State where
  selected : Rectangle
  selecting : Bool
  view : Option viewport
deriving DecidableEq, Repr

/-- The state at program start: all three variables hold their zero value. -/
def State.init : State := { selected := Rectangle.zero, selecting := false, view := none }

/-- The body of the event loop of `layoutSelectionLayer` (main.go, lines 202-233): the
type switch and the switch on the kind, applied to an event that `gtx.Event` returned;
`cmax` is `gtx.Constraints.Max`.  Which events `gtx.Event` returns is decided by the
filter, see `delivered` and `layoutSelectionLayer`. -/
def handleEvent (cmax : ImagePoint) (s : State) (ev : Event) : State :=
  match ev with
  | Event.other => s
  | Event.pointer e =>
    let intPt : ImagePoint := ⟨truncate e.Position.X, truncate e.Position.Y⟩
    match e.kind with
    | Kind.Press => { s with selecting := true, selected := ⟨intPt, intPt⟩ }
    | Kind.Release =>
      let newView : viewport :=
        { offset := ⟨(s.selected.Min.X : ℚ) / (cmax.X : ℚ), (s.selected.Min.Y : ℚ) / (cmax.Y : ℚ)⟩,
          size := ⟨(s.selected.Dx : ℚ) / (cmax.X : ℚ), (s.selected.Dy : ℚ) / (cmax.Y : ℚ)⟩ }
      match s.view with
      | none => { s with selecting := false, view := some newView }
      | some v => { s with selecting := false, view := some (compose v newView) }
    | Kind.Cancel => { s with selecting := false, selected := Rectangle.zero }
    | _ => s

/-- The filter passed to `gtx.Event` (main.go, lines 195-198):
`Kinds: pointer.Press | pointer.Release | pointer.Drag`.  A pointer event is returned to
the loop when its kind is one of the three kinds named; events of another type are not
returned by a pointer filter. -/
def delivered (ev : Event) : Bool :=
  match ev with
  | Event.other => false
  | Event.pointer e =>
    match e.kind with
    | Kind.Press => true
    | Kind.Release => true
    | Kind.Drag => true
    | _ => false

/-- The event loop of `layoutSelectionLayer` (main.go, lines 194-234): of the events of
the frame, those that pass the filter are handled in order. -/
def layoutSelectionLayer (cmax : ImagePoint) (events : List Event) (s : State) : State :=
  (events.filter delivered).foldl (handleEvent cmax) s

/-- A press event at an integer pixel position. -/
def press (x y : ℤ) : Event := Event.pointer ⟨Kind.Press, ⟨x, y⟩⟩

/-- A release event at an integer pixel position. -/
def release (x y : ℤ) : Event := Event.pointer ⟨Kind.Release, ⟨x, y⟩⟩

/-- A cancel event. -/
def cancel (pos : F32Point) : Event := Event.pointer ⟨Kind.Cancel, pos⟩

/-- The switch of the selection layer over several frames: every event is handled with
the bounding box (`gtx.Constraints.Max`) of its frame.  No filter is applied here, so
the sequences of `run` include every sequence the program handles. -/
def run (s : State) (evs : List (ImagePoint × Event)) : State :=
  evs.foldl (fun st ce => handleEvent ce.1 st ce.2) s

/-! ## Spectrogram builder: sizes and start indices -/

/-- The ways in which `create_image` stops without returning an image: `log.Fatalf`
after a failed check, or a run-time panic. -/
inductive Abort where
  | fatal
  | divideByZero
  | indexOutOfRange
deriving DecidableEq, Repr

/-- The value of a `w`-bit two's complement integer holding the mathematical value `x`:
what Go's `int` keeps of the result of an arithmetic operation. -/
def wrapInt (w : ℕ) (x : ℤ) : ℤ := (x + 2 ^ (w - 1)) % 2 ^ w - 2 ^ (w - 1)

/-- The local `SIZE := 512` of `create_image`. -/
def SIZE : ℤ := 512

/-- The local `R := 128` of `create_image`. -/
def R : ℤ := 128

/-- The size check of `create_image` (main.go, lines 85-90) on a file of `size` bytes:
an odd size is fatal, otherwise `len = size / 2` samples are read. -/
def loadLen (size : ℕ) : Except Abort ℤ :=
  if Int.tmod (size : ℤ) 2 ≠ 0 then Except.error Abort.fatal
  else Except.ok (Int.tdiv (size : ℤ) 2)

/-- The start index of column `i` (main.go, line 119):
`index := ((len - SIZE) * i) / (width - 1)` on `w`-bit integers.  The differences cannot
overflow for `0 ≤ len`; the product can and wraps; a zero divisor is a run-time panic;
the quotient is truncated. -/
def columnIndex (w : ℕ) (len width i : ℤ) : Except Abort ℤ :=
  if width - 1 = 0 then Except.error Abort.divideByZero
  else Except.ok (Int.tdiv (wrapInt w ((len - SIZE) * i)) (width - 1))

/-- One column of the outer loop (main.go, lines 118-122): the start index, then the
reads `buf[index+j]` for `j` in `0..SIZE-1`, which panic when out of range. -/
def column (w : ℕ) (len width i : ℤ) : Except Abort ℤ :=
  match columnIndex w len width i with
  | Except.error e => Except.error e
  | Except.ok index =>
    if index < 0 ∨ len ≤ index + (SIZE - 1) then Except.error Abort.indexOutOfRange
    else Except.ok index

/-- The dimensions of the image and, per column, the start index of its frame. -/
structure Grid where
  width : ℤ
  height : ℤ
  starts : List ℤ
deriving DecidableEq, Repr

/-- The function `create_image` (main.go, lines 72-157) on a readable file of `size`
bytes, as far as sizes and indices go: the pixels of column `i` are computed from the
frame that starts at `starts[i]`, and each column holds `height` pixels. -/
def create_image (w : ℕ) (size : ℕ) : Except Abort Grid :=
  match loadLen size with
  | Except.error e => Except.error e
  | Except.ok len =>
    let width := Int.tdiv len R
    let height := Int.tdiv SIZE 2
    match (List.range width.toNat).mapM (fun i => column w len width (i : ℤ)) with
    | Except.error e => Except.error e
    | Except.ok starts => Except.ok { width := width, height := height, starts := starts }

/-- The pixel row in which bin `j` of a column is stored (main.go, line 142):
`height - j - 1`. -/
def pixelRow (j : ℤ) : ℤ := Int.tdiv SIZE 2 - j - 1

/-! ## Spectrogram builder: window, frame, transform, intensity -/

/-- The local `a0 := 25. / 46.` of `create_image`. -/
noncomputable def a0 : ℝ := 25 / 46

/-- The window coefficient `window[i]` for frame length `N` (main.go, line 104), over
the reals. -/
noncomputable def window (N i : ℕ) : ℝ :=
  a0 - (1 - a0) * Real.cos (2 * Real.pi * (i : ℝ) / (((N : ℤ) - 1 : ℤ) : ℝ))

/-- The constant subtracted from every sample (main.go, line 121). -/
noncomputable def center : ℝ := 2048

/-- The entry `work[j]` of the analysis frame that starts at `index` (main.go,
line 121): `complex((float64(buf[index+j]) - 2048.0) * window[j], 0)`.  The frame is
only built for `index + SIZE ≤ len(buf)`, see `column`. -/
noncomputable def work (buf : List ℕ) (index j : ℕ) : ℂ :=
  ⟨((buf.getD (index + j) 0 : ℕ) - center) * window 512 j, 0⟩

/-- The library call `gofft.FFT` on a frame of `512` values, taken to be the discrete
Fourier transform: bin `k` is `∑ n, x[n] * exp(-2πi·k·n/512)`. -/
noncomputable def FFT (x : ℕ → ℂ) (k : ℕ) : ℂ :=
  ∑ n in Finset.range 512, x n * Complex.exp (-(2 * Real.pi * k * n / 512 : ℝ) * Complex.I)

/-- The value handed to `math.Log10` for bin `j` (main.go, line 127):
`cmplx.Abs(work[j])` after the transform. -/
noncomputable def logArg (buf : List ℕ) (index j : ℕ) : ℝ :=
  Complex.abs (FFT (work buf index) j)

/-- The intensity of bin `j` (main.go, lines 127-129): `z := math.Log10(...)`,
`ang := (z + 0.4) / (6 + 0.4)`. -/
noncomputable def ang (buf : List ℕ) (index j : ℕ) : ℝ :=
  (Real.logb 10 (logArg buf index j) + 0.4) / (6 + 0.4)

/-- A buffer of `n` samples that alternates between `2048 - A` and `2048 + A`. -/
def tone (A n : ℕ) : List ℕ :=
  (List.range n).map (fun p => if p % 2 = 0 then 2048 - A else 2048 + A)

/-- The sum `∑ n < 512, exp(iφ)^n`. -/
noncomputable def geomSum (φ : ℝ) : ℂ :=
  ∑ n in Finset.range 512, Complex.exp (φ * Complex.I) ^ n

/-- The sum `∑ n < 512, window[n] * exp(iθ)^n`: the transform of the window at the
angle `θ`. -/
noncomputable def windowSum (θ : ℝ) : ℂ :=
  ∑ n in Finset.range 512, (window 512 n : ℂ) * Complex.exp (θ * Complex.I) ^ n

/-! ## Viewport algebra -/

theorem compose_eq (a b : viewport) :
    compose a b =
      { offset := ⟨a.offset.X + b.offset.X * a.size.X, a.offset.Y + b.offset.Y * a.size.Y⟩,
        size := ⟨a.size.X * b.size.X, a.size.Y * b.size.Y⟩ } := by
  simp [compose, subview, store2, Store.write]

theorem identity_compose (v : viewport) : compose identity v = v := by
  obtain ⟨⟨ox, oy⟩, ⟨sx, sy⟩⟩ := v
  simp [compose_eq, identity]

theorem compose_identity_right (v : viewport) : compose v identity = v := by
  obtain ⟨⟨ox, oy⟩, ⟨sx, sy⟩⟩ := v
  simp [compose_eq, identity]

/-- C1: after `v.subview(other)` the cell `v` holds
`offset = v.offset + other.offset * v.size` and `size = v.size * other.size`,
component-wise and in terms of the values before the call (this part holds for any two
pointers), and the cell `other`, a viewport other than `v`, is unchanged. -/
theorem subview_spec (σ : Store) (v other : Ptr) :
    (subview σ v other v).offset.X = (σ v).offset.X + (σ other).offset.X * (σ v).size.X ∧
    (subview σ v other v).offset.Y = (σ v).offset.Y + (σ other).offset.Y * (σ v).size.Y ∧
    (subview σ v other v).size.X = (σ v).size.X * (σ other).size.X ∧
    (subview σ v other v).size.Y = (σ v).size.Y * (σ other).size.Y ∧
    (other ≠ v → subview σ v other other = σ other) := by
  by_cases h : other = v
  · subst h
    simp [subview, Store.write]
  · simp [subview, Store.write, h]

theorem subview_spec_witness :
    (1 : Ptr) ≠ 0 ∧
    subview (store2 ⟨⟨1, 2⟩, ⟨3, 4⟩⟩ ⟨⟨5, 6⟩, ⟨7, 8⟩⟩) 0 1 1 =
      store2 ⟨⟨1, 2⟩, ⟨3, 4⟩⟩ ⟨⟨5, 6⟩, ⟨7, 8⟩⟩ 1 :=
  ⟨by decide, (subview_spec (store2 ⟨⟨1, 2⟩, ⟨3, 4⟩⟩ ⟨⟨5, 6⟩, ⟨7, 8⟩⟩) 0 1).2.2.2.2 (by decide)⟩

/-- C2: composition of viewports is associative in exact arithmetic, in both offset and
size. -/
theorem compose_assoc (a b c : viewport) :
    compose (compose a b) c = compose a (compose b c) := by
  simp only [compose_eq, viewport.mk.injEq, F32Point.mk.injEq]
  refine ⟨⟨?_, ?_⟩, ?_, ?_⟩ <;> ring

/-- C3: `identity` is a two-sided unit of composition. -/
theorem compose_identity (v : viewport) :
    compose identity v = v ∧ compose v identity = v :=
  ⟨identity_compose v, compose_identity_right v⟩

/-! ## Selection layer -/

/-- C4: evaluation at press `(10,10)`, release `(110,60)`, box `200x200`, no prior
viewport: the release handler never reads the release position and no handler moves
`selected.Max`, so the viewport obtained has size `(0,0)`, not `(0.5,0.25)`. -/
theorem press_release_size_zero :
    (layoutSelectionLayer ⟨200, 200⟩ [press 10 10, release 110 60] State.init).view
        = some ⟨⟨1 / 20, 1 / 20⟩, ⟨0, 0⟩⟩ ∧
    (layoutSelectionLayer ⟨200, 200⟩ [press 10 10, release 110 60] State.init).view
        ≠ some ⟨⟨1 / 20, 1 / 20⟩, ⟨1 / 2, 1 / 4⟩⟩ := by
  have h : (layoutSelectionLayer ⟨200, 200⟩ [press 10 10, release 110 60] State.init).view
      = some ⟨⟨1 / 20, 1 / 20⟩, ⟨0, 0⟩⟩ := by
    simp [layoutSelectionLayer, delivered, handleEvent, press, release, State.init, truncate,
      Rectangle.Dx, Rectangle.Dy]
    norm_num
  refine ⟨h, ?_⟩
  rw [h]
  simp

/-- C5: evaluation at press `(10,10)` followed by a cancel event, box `200x200`, no prior
viewport: the filter of the loop asks for press, release and drag only, the cancel event
is not handed to the switch, and the layer is left selecting with the press point in both
corners of the stored rectangle; the viewport is unchanged (absent). -/
theorem cancel_not_delivered :
    delivered (cancel ⟨10, 10⟩) = false ∧
    (layoutSelectionLayer ⟨200, 200⟩ [press 10 10, cancel ⟨10, 10⟩] State.init).selecting
        = true ∧
    (layoutSelectionLayer ⟨200, 200⟩ [press 10 10, cancel ⟨10, 10⟩] State.init).selected
        = ⟨⟨10, 10⟩, ⟨10, 10⟩⟩ ∧
    (layoutSelectionLayer ⟨200, 200⟩ [press 10 10, cancel ⟨10, 10⟩] State.init).selected
        ≠ Rectangle.zero ∧
    (layoutSelectionLayer ⟨200, 200⟩ [press 10 10, cancel ⟨10, 10⟩] State.init).view
        = none := by
  have hs : (layoutSelectionLayer ⟨200, 200⟩ [press 10 10, cancel ⟨10, 10⟩] State.init).selected
      = ⟨⟨10, 10⟩, ⟨10, 10⟩⟩ := by
    simp [layoutSelectionLayer, delivered, handleEvent, press, cancel, State.init, truncate]
  refine ⟨rfl, ?_, hs, ?_, ?_⟩
  · simp [layoutSelectionLayer, delivered, handleEvent, press, cancel, State.init]
  · rw [hs]
    decide
  · simp [layoutSelectionLayer, delivered, handleEvent, press, cancel, State.init]

/-- C6: a release handled with no viewport yields the same viewport as the same release
handled with the identity viewport as current viewport. -/
theorem release_nil_eq_release_identity (cmax : ImagePoint) (s : State) (pos : F32Point) :
    (handleEvent cmax { s with view := none } (Event.pointer ⟨Kind.Release, pos⟩)).view =
    (handleEvent cmax { s with view := some identity } (Event.pointer ⟨Kind.Release, pos⟩)).view := by
  simp [handleEvent, identity_compose]

/-! ## Colour mapper -/

theorem hue2rgb_between (p q t : ℚ) (hpq : p ≤ q) (ht : -1 ≤ t) :
    p ≤ hue2rgb p q t ∧ hue2rgb p q t ≤ q := by
  have hd : 0 ≤ q - p := sub_nonneg.mpr hpq
  unfold hue2rgb
  simp only []
  split_ifs <;> constructor <;> nlinarith

theorem hsl_pq_bounds (s l : ℚ) (hs0 : 0 ≤ s) (hs1 : s ≤ 1) (hl0 : 0 ≤ l) (hl1 : l ≤ 1) :
    0 ≤ 2 * l - (if l < 1 / 2 then l * (1 + s) else l + s - l * s) ∧
    2 * l - (if l < 1 / 2 then l * (1 + s) else l + s - l * s)
      ≤ (if l < 1 / 2 then l * (1 + s) else l + s - l * s) ∧
    (if l < 1 / 2 then l * (1 + s) else l + s - l * s) ≤ 1 := by
  split_ifs with h
  · refine ⟨?_, ?_, ?_⟩ <;> nlinarith
  · push_neg at h
    refine ⟨?_, ?_, ?_⟩ <;> nlinarith

theorem hslChannels_unit (h s l : ℚ) (hh0 : 0 ≤ h) (hs0 : 0 ≤ s) (hs1 : s ≤ 1)
    (hl0 : 0 ≤ l) (hl1 : l ≤ 1) :
    (0 ≤ (hslChannels h s l).1 ∧ (hslChannels h s l).1 ≤ 1) ∧
    (0 ≤ (hslChannels h s l).2.1 ∧ (hslChannels h s l).2.1 ≤ 1) ∧
    (0 ≤ (hslChannels h s l).2.2 ∧ (hslChannels h s l).2.2 ≤ 1) := by
  unfold hslChannels
  by_cases hs : s = 0
  · rw [if_pos hs]
    exact ⟨⟨hl0, hl1⟩, ⟨hl0, hl1⟩, ⟨hl0, hl1⟩⟩
  · rw [if_neg hs]
    obtain ⟨hp, hpq, hq⟩ := hsl_pq_bounds s l hs0 hs1 hl0 hl1
    have hr := hue2rgb_between _ _ (h + 1 / 3) hpq (by linarith)
    have hg := hue2rgb_between _ _ h hpq (by linarith)
    have hb := hue2rgb_between _ _ (h - 1 / 3) hpq (by linarith)
    dsimp only
    exact ⟨⟨le_trans hp hr.1, le_trans hr.2 hq⟩, ⟨le_trans hp hg.1, le_trans hg.2 hq⟩,
      ⟨le_trans hp hb.1, le_trans hb.2 hq⟩⟩

theorem toUint8_scaled (x : ℚ) (h0 : 0 ≤ x) (h1 : x ≤ 1) :
    ((toUint8 (x * 255) : ℕ) : ℤ) = truncate (x * 255) ∧ truncate (x * 255) = ⌊x * 255⌋ ∧
    toUint8 (x * 255) ≤ 255 := by
  have hx : 0 ≤ x * 255 := by positivity
  have ht : truncate (x * 255) = ⌊x * 255⌋ := by simp [truncate, hx]
  have hf0 : 0 ≤ ⌊x * 255⌋ := Int.floor_nonneg.mpr hx
  have hf1 : ⌊x * 255⌋ ≤ 255 := by
    have : ⌊x * 255⌋ ≤ ⌊(255 : ℚ)⌋ := Int.floor_le_floor (by linarith)
    simpa using this
  have hm : ⌊x * 255⌋ % 256 = ⌊x * 255⌋ := Int.emod_eq_of_lt hf0 (by omega)
  have hc : ((toUint8 (x * 255) : ℕ) : ℤ) = ⌊x * 255⌋ := by
    unfold toUint8
    rw [ht, hm, Int.toNat_of_nonneg hf0]
  refine ⟨by rw [hc, ht], ht, ?_⟩
  omega

/-- C7: for hue, saturation and lightness in `[0,1]` the channel intensities computed by
`hsl_to_color` lie in `[0,1]`, so each of `R`, `G`, `B` is the truncation of the scaled
intensity itself (the reduction modulo `256` changes nothing) and at most `255`, and
`A = 255`. -/
theorem hsl_to_color_in_range (h s l : ℚ) (hh0 : 0 ≤ h) (_hh1 : h ≤ 1) (hs0 : 0 ≤ s)
    (hs1 : s ≤ 1) (hl0 : 0 ≤ l) (hl1 : l ≤ 1) :
    ((0 ≤ (hslChannels h s l).1 ∧ (hslChannels h s l).1 ≤ 1) ∧
     (0 ≤ (hslChannels h s l).2.1 ∧ (hslChannels h s l).2.1 ≤ 1) ∧
     (0 ≤ (hslChannels h s l).2.2 ∧ (hslChannels h s l).2.2 ≤ 1)) ∧
    (((hsl_to_color h s l).R : ℤ) = truncate ((hslChannels h s l).1 * 255) ∧
     ((hsl_to_color h s l).G : ℤ) = truncate ((hslChannels h s l).2.1 * 255) ∧
     ((hsl_to_color h s l).B : ℤ) = truncate ((hslChannels h s l).2.2 * 255)) ∧
    ((hsl_to_color h s l).R ≤ 255 ∧ (hsl_to_color h s l).G ≤ 255 ∧
     (hsl_to_color h s l).B ≤ 255) ∧
    (hsl_to_color h s l).A = 255 := by
  have hc := hslChannels_unit h s l hh0 hs0 hs1 hl0 hl1
  obtain ⟨⟨r0, r1⟩, ⟨g0, g1⟩, ⟨b0, b1⟩⟩ := hc
  have hr := toUint8_scaled _ r0 r1
  have hg := toUint8_scaled _ g0 g1
  have hb := toUint8_scaled _ b0 b1
  exact ⟨⟨⟨r0, r1⟩, ⟨g0, g1⟩, ⟨b0, b1⟩⟩, ⟨hr.1, hg.1, hb.1⟩, ⟨hr.2.2, hg.2.2, hb.2.2⟩, rfl⟩

theorem hsl_to_color_in_range_witness :
    ((0 ≤ (hslChannels (1 / 3) (1 / 2) (1 / 4)).1 ∧ (hslChannels (1 / 3) (1 / 2) (1 / 4)).1 ≤ 1) ∧
     (0 ≤ (hslChannels (1 / 3) (1 / 2) (1 / 4)).2.1 ∧
       (hslChannels (1 / 3) (1 / 2) (1 / 4)).2.1 ≤ 1) ∧
     (0 ≤ (hslChannels (1 / 3) (1 / 2) (1 / 4)).2.2 ∧
       (hslChannels (1 / 3) (1 / 2) (1 / 4)).2.2 ≤ 1)) ∧
    (((hsl_to_color (1 / 3) (1 / 2) (1 / 4)).R : ℤ)
        = truncate ((hslChannels (1 / 3) (1 / 2) (1 / 4)).1 * 255) ∧
     ((hsl_to_color (1 / 3) (1 / 2) (1 / 4)).G : ℤ)
        = truncate ((hslChannels (1 / 3) (1 / 2) (1 / 4)).2.1 * 255) ∧
     ((hsl_to_color (1 / 3) (1 / 2) (1 / 4)).B : ℤ)
        = truncate ((hslChannels (1 / 3) (1 / 2) (1 / 4)).2.2 * 255)) ∧
    ((hsl_to_color (1 / 3) (1 / 2) (1 / 4)).R ≤ 255 ∧ (hsl_to_color (1 / 3) (1 / 2) (1 / 4)).G ≤ 255 ∧
     (hsl_to_color (1 / 3) (1 / 2) (1 / 4)).B ≤ 255) ∧
    (hsl_to_color (1 / 3) (1 / 2) (1 / 4)).A = 255 :=
  hsl_to_color_in_range (1 / 3) (1 / 2) (1 / 4) (by norm_num) (by norm_num) (by norm_num)
    (by norm_num) (by norm_num) (by norm_num)

/-- C8, as stated, fails: at lightness `1/2` the code yields `R = 127` (the fraction of
`127.5` is discarded), while `round(0.5 * 255) = 128`. -/
theorem hsl_to_color_gray_not_round :
    (hsl_to_color 0 0 (1 / 2)).R = 127 ∧ round ((1 / 2 : ℚ) * 255) = 128 ∧
    ((hsl_to_color 0 0 (1 / 2)).R : ℤ) ≠ round ((1 / 2 : ℚ) * 255) := by
  have hfl : ⌊(255 / 2 : ℚ)⌋ = 127 := by
    rw [Int.floor_eq_iff]; constructor <;> norm_num
  have hR : (hsl_to_color 0 0 (1 / 2)).R = 127 := by
    have h255 : (1 / 2 : ℚ) * 255 = 255 / 2 := by norm_num
    have hnn : (0 : ℚ) ≤ 255 / 2 := by norm_num
    simp only [hsl_to_color, hslChannels, toUint8, truncate, if_true, h255, hnn, hfl]
    rfl
  have hrd : round ((1 / 2 : ℚ) * 255) = 128 := by
    rw [round_eq, Int.floor_eq_iff]; constructor <;> norm_num
  refine ⟨hR, hrd, ?_⟩
  rw [hR, hrd]
  decide

theorem toUint8_of_range (y : ℚ) (h0 : 0 ≤ y) (h1 : y ≤ 255) :
    ((toUint8 y : ℕ) : ℤ) = ⌊y⌋ ∧ truncate y = ⌊y⌋ ∧ toUint8 y ≤ 255 := by
  have ht : truncate y = ⌊y⌋ := by simp [truncate, h0]
  have hf0 : 0 ≤ ⌊y⌋ := Int.floor_nonneg.mpr h0
  have hf1 : ⌊y⌋ ≤ 255 := by
    have : ⌊y⌋ ≤ ⌊(255 : ℚ)⌋ := Int.floor_le_floor h1
    simpa using this
  have hm : ⌊y⌋ % 256 = ⌊y⌋ := Int.emod_eq_of_lt hf0 (by omega)
  have hc : ((toUint8 y : ℕ) : ℤ) = ⌊y⌋ := by
    unfold toUint8
    rw [ht, hm, Int.toNat_of_nonneg hf0]
  refine ⟨hc, ht, ?_⟩
  omega

theorem rnd_between (rnd : ℚ → ℚ) (hmono : Monotone rnd)
    (hint : ∀ n : ℤ, 0 ≤ n → n ≤ 255 → rnd (n : ℚ) = (n : ℚ))
    (x : ℚ) (h0 : 0 ≤ x) (h1 : x ≤ 255) :
    ((⌊x⌋ : ℤ) : ℚ) ≤ rnd x ∧ rnd x ≤ ((⌈x⌉ : ℤ) : ℚ) := by
  have hf0 : 0 ≤ ⌊x⌋ := Int.floor_nonneg.mpr h0
  have hf1 : ⌊x⌋ ≤ 255 := by
    have : ⌊x⌋ ≤ ⌊(255 : ℚ)⌋ := Int.floor_le_floor h1
    simpa using this
  have hc0 : 0 ≤ ⌈x⌉ := Int.ceil_nonneg h0
  have hc1 : ⌈x⌉ ≤ 255 := by
    have : ⌈x⌉ ≤ ⌈(255 : ℚ)⌉ := Int.ceil_le_ceil h1
    simpa using this
  constructor
  · rw [← hint ⌊x⌋ hf0 hf1]
    exact hmono (Int.floor_le x)
  · rw [← hint ⌈x⌉ hc0 hc1]
    exact hmono (Int.le_ceil x)

/-- C8, amended: for saturation `0`, every hue and every lightness `l` in `[0,1]`, the
colour is achromatic, `R = G = B`, with `A = 255`, and the common value is the computed
product `l * 255` with its fraction discarded (truncated, not rounded to the nearest
integer): it lies between `⌊l * 255⌋` and `⌈l * 255⌉` and is at most `255`.  This holds
for every rounding `rnd` of the product that is monotone and leaves the integers
`0..255` as they are, as the `float64` multiplication does. -/
theorem hslColorWith_gray (rnd : ℚ → ℚ) (hmono : Monotone rnd)
    (hint : ∀ n : ℤ, 0 ≤ n → n ≤ 255 → rnd (n : ℚ) = (n : ℚ))
    (h l : ℚ) (hl0 : 0 ≤ l) (hl1 : l ≤ 1) :
    (hslColorWith rnd h 0 l).R = (hslColorWith rnd h 0 l).G ∧
    (hslColorWith rnd h 0 l).G = (hslColorWith rnd h 0 l).B ∧
    (hslColorWith rnd h 0 l).A = 255 ∧
    ((hslColorWith rnd h 0 l).R : ℤ) = ⌊rnd (l * 255)⌋ ∧
    ⌊l * 255⌋ ≤ ((hslColorWith rnd h 0 l).R : ℤ) ∧
    ((hslColorWith rnd h 0 l).R : ℤ) ≤ ⌈l * 255⌉ ∧
    (hslColorWith rnd h 0 l).R ≤ 255 := by
  have hx0 : 0 ≤ l * 255 := by positivity
  have hx1 : l * 255 ≤ 255 := by linarith
  obtain ⟨hlo, hhi⟩ := rnd_between rnd hmono hint (l * 255) hx0 hx1
  have hr0 : 0 ≤ rnd (l * 255) := le_trans (by exact_mod_cast Int.floor_nonneg.mpr hx0) hlo
  have hr1 : rnd (l * 255) ≤ 255 := by
    have hc1 : ⌈l * 255⌉ ≤ 255 := by
      have : ⌈l * 255⌉ ≤ ⌈(255 : ℚ)⌉ := Int.ceil_le_ceil hx1
      simpa using this
    have : ((⌈l * 255⌉ : ℤ) : ℚ) ≤ 255 := by exact_mod_cast hc1
    linarith
  obtain ⟨hu, _, hle⟩ := toUint8_of_range (rnd (l * 255)) hr0 hr1
  have hR : (hslColorWith rnd h 0 l).R = toUint8 (rnd (l * 255)) := by
    simp [hslColorWith, hslChannels]
  have hG : (hslColorWith rnd h 0 l).G = toUint8 (rnd (l * 255)) := by
    simp [hslColorWith, hslChannels]
  have hB : (hslColorWith rnd h 0 l).B = toUint8 (rnd (l * 255)) := by
    simp [hslColorWith, hslChannels]
  refine ⟨by rw [hR, hG], by rw [hG, hB], rfl, by rw [hR, hu], ?_, ?_, by rw [hR]; exact hle⟩
  · rw [hR, hu]
    exact Int.le_floor.mpr hlo
  · rw [hR, hu]
    have : ((⌊rnd (l * 255)⌋ : ℤ) : ℚ) ≤ ((⌈l * 255⌉ : ℤ) : ℚ) :=
      le_trans (Int.floor_le _) hhi
    exact_mod_cast this

theorem hslColorWith_gray_witness :
    (hslColorWith id (1 / 3) 0 (1 / 2)).R = (hslColorWith id (1 / 3) 0 (1 / 2)).G ∧
    (hslColorWith id (1 / 3) 0 (1 / 2)).G = (hslColorWith id (1 / 3) 0 (1 / 2)).B ∧
    (hslColorWith id (1 / 3) 0 (1 / 2)).A = 255 ∧
    ((hslColorWith id (1 / 3) 0 (1 / 2)).R : ℤ) = ⌊id ((1 / 2 : ℚ) * 255)⌋ ∧
    ⌊(1 / 2 : ℚ) * 255⌋ ≤ ((hslColorWith id (1 / 3) 0 (1 / 2)).R : ℤ) ∧
    ((hslColorWith id (1 / 3) 0 (1 / 2)).R : ℤ) ≤ ⌈(1 / 2 : ℚ) * 255⌉ ∧
    (hslColorWith id (1 / 3) 0 (1 / 2)).R ≤ 255 :=
  hslColorWith_gray id monotone_id (fun _ _ _ => rfl) (1 / 3) (1 / 2) (by norm_num)
    (by norm_num)

/-- C9, as stated, fails: for `p = 0`, `q = 1`, `t = 1/12` the code returns `1/2` (the
rising ramp `p + (q-p)*6*t`), while the piecewise function of the specification returns
`p = 0`. -/
theorem hue2rgb_ne_spec :
    hue2rgb 0 1 (1 / 12) = 1 / 2 ∧ hue2rgbSpec 0 1 (1 / 12) = 0 ∧
    hue2rgb 0 1 (1 / 12) ≠ hue2rgbSpec 0 1 (1 / 12) := by
  have h1 : hue2rgb 0 1 (1 / 12) = 1 / 2 := by
    simp [hue2rgb]; norm_num
  have h2 : hue2rgbSpec 0 1 (1 / 12) = 0 := by
    simp [hue2rgbSpec, wrapT]; norm_num
  refine ⟨h1, h2, ?_⟩
  rw [h1, h2]
  norm_num

/-- C9, amended: with `t` wrapped (plus `1` if `t < 0`, minus `1` if `t > 1`),
`hue2rgb(p, q, t)` is `p + (q-p)*6*t` if `t < 1/6`, `q` if `t < 1/2`,
`p + (q-p)*(2/3 - t)*6` if `t < 2/3`, and `p` otherwise; it agrees with the function of
the specification from `t = 1/6` on. -/
theorem hue2rgb_piecewise (p q t : ℚ) :
    hue2rgb p q t =
      (if wrapT t < 1 / 6 then p + (q - p) * 6 * wrapT t
       else if wrapT t < 1 / 2 then q
       else if wrapT t < 2 / 3 then p + (q - p) * (2 / 3 - wrapT t) * 6
       else p) ∧
    (¬ wrapT t < 1 / 6 → hue2rgb p q t = hue2rgbSpec p q t) := by
  have hw : (if (if t < 0 then t + 1 else t) > 1 then (if t < 0 then t + 1 else t) - 1
      else (if t < 0 then t + 1 else t)) = wrapT t := by
    unfold wrapT
    split_ifs <;> first | rfl | linarith
  have he : hue2rgb p q t =
      (if wrapT t < 1 / 6 then p + (q - p) * 6 * wrapT t
       else if wrapT t < 1 / 2 then q
       else if wrapT t < 2 / 3 then p + (q - p) * (2 / 3 - wrapT t) * 6
       else p) := by
    unfold hue2rgb
    simp only [hw]
  refine ⟨he, fun h => ?_⟩
  rw [he]
  unfold hue2rgbSpec
  rw [if_neg h, if_neg h]

theorem hue2rgb_piecewise_witness :
    ¬ wrapT (1 / 4) < 1 / 6 ∧ hue2rgb 0 1 (1 / 4) = hue2rgbSpec 0 1 (1 / 4) :=
  ⟨by norm_num [wrapT], (hue2rgb_piecewise 0 1 (1 / 4)).2 (by norm_num [wrapT])⟩

/-- C10: `hsl_to_color(0, 1, 0.5)` is pure red. -/
theorem hsl_to_color_red : hsl_to_color 0 1 (1 / 2) = ⟨255, 0, 0, 255⟩ := by
  simp [hsl_to_color, hslChannels, hue2rgb, toUint8, truncate]
  norm_num
  rfl

/-! ## Selection layer: release and reachable states -/

/-- C18: evaluation at press `(10,10)`, release `(110,60)`, box `200x200`: after the
release is handled the stored rectangle still holds the press point in both corners; it
is not reset to the zero rectangle. -/
theorem release_keeps_selected :
    (layoutSelectionLayer ⟨200, 200⟩ [press 10 10, release 110 60] State.init).selected
        = ⟨⟨10, 10⟩, ⟨10, 10⟩⟩ ∧
    (layoutSelectionLayer ⟨200, 200⟩ [press 10 10, release 110 60] State.init).selected
        ≠ Rectangle.zero := by
  have h : (layoutSelectionLayer ⟨200, 200⟩ [press 10 10, release 110 60] State.init).selected
      = ⟨⟨10, 10⟩, ⟨10, 10⟩⟩ := by
    simp [layoutSelectionLayer, delivered, handleEvent, press, release, State.init, truncate]
  refine ⟨h, ?_⟩
  rw [h]
  decide

theorem handleEvent_invariant (cmax : ImagePoint) (s : State) (ev : Event)
    (hs : s.selected.Min = s.selected.Max ∧ ∀ v, s.view = some v → v.size = ⟨0, 0⟩) :
    (handleEvent cmax s ev).selected.Min = (handleEvent cmax s ev).selected.Max ∧
    ∀ v, (handleEvent cmax s ev).view = some v → v.size = ⟨0, 0⟩ := by
  obtain ⟨hm, hv⟩ := hs
  have hdx : s.selected.Dx = 0 := by simp [Rectangle.Dx, hm]
  have hdy : s.selected.Dy = 0 := by simp [Rectangle.Dy, hm]
  cases ev with
  | other => exact ⟨hm, hv⟩
  | pointer e =>
    obtain ⟨k, pos⟩ := e
    cases k with
    | Press => exact ⟨rfl, hv⟩
    | Release =>
      cases hview : s.view with
      | none =>
        refine ⟨by simpa [handleEvent, hview] using hm, ?_⟩
        intro v h
        simp only [handleEvent, hview, Option.some.injEq] at h
        subst h
        simp [hdx, hdy]
      | some v0 =>
        refine ⟨by simpa [handleEvent, hview] using hm, ?_⟩
        intro v h
        simp only [handleEvent, hview, Option.some.injEq] at h
        subst h
        simp [compose_eq, hdx, hdy]
    | Cancel => exact ⟨rfl, hv⟩
    | Move => exact ⟨hm, hv⟩
    | Drag => exact ⟨hm, hv⟩
    | Enter => exact ⟨hm, hv⟩
    | Leave => exact ⟨hm, hv⟩
    | Scroll => exact ⟨hm, hv⟩

theorem run_invariant_from (evs : List (ImagePoint × Event)) (s : State)
    (hs : s.selected.Min = s.selected.Max ∧ ∀ v, s.view = some v → v.size = ⟨0, 0⟩) :
    (run s evs).selected.Min = (run s evs).selected.Max ∧
    ∀ v, (run s evs).view = some v → v.size = ⟨0, 0⟩ := by
  induction evs generalizing s with
  | nil => exact hs
  | cons ce rest ih =>
    have hstep := handleEvent_invariant ce.1 s ce.2 hs
    simpa [run] using ih (handleEvent ce.1 s ce.2) hstep

/-- C20: in every state reached from the initial state by any sequence of events (press,
drag, release, cancel or any other kind), each handled with a positive bounding box, the
stored selection rectangle has `Min = Max`, and a viewport, when one exists, has size
`(0,0)`. -/
theorem run_invariant (evs : List (ImagePoint × Event))
    (_hpos : ∀ ce ∈ evs, 0 < ce.1.X ∧ 0 < ce.1.Y) :
    (run State.init evs).selected.Min = (run State.init evs).selected.Max ∧
    ∀ v, (run State.init evs).view = some v → v.size = ⟨0, 0⟩ :=
  run_invariant_from evs State.init ⟨rfl, by simp [State.init]⟩

theorem run_invariant_witness :
    (run State.init [(⟨200, 200⟩, press 10 10),
        (⟨200, 200⟩, Event.pointer ⟨Kind.Drag, ⟨60, 40⟩⟩),
        (⟨200, 200⟩, release 110 60)]).selected.Min
      = (run State.init [(⟨200, 200⟩, press 10 10),
        (⟨200, 200⟩, Event.pointer ⟨Kind.Drag, ⟨60, 40⟩⟩),
        (⟨200, 200⟩, release 110 60)]).selected.Max ∧
    ∀ v, (run State.init [(⟨200, 200⟩, press 10 10),
        (⟨200, 200⟩, Event.pointer ⟨Kind.Drag, ⟨60, 40⟩⟩),
        (⟨200, 200⟩, release 110 60)]).view = some v → v.size = ⟨0, 0⟩ :=
  run_invariant _ (by
    intro ce h
    simp only [List.mem_cons, List.mem_singleton, List.not_mem_nil, or_false] at h
    rcases h with h | h | h <;> subst h <;> decide)

/-! ## Spectrogram builder: sizes and start indices -/

/-- C13: evaluation on a file of `256` bytes (`len = 128`, `width = 1`): the divisor
`width - 1` is zero and the start-index computation of the only column panics; no pixel
is produced. -/
theorem create_image_single_column (w : ℕ) :
    loadLen 256 = Except.ok 128 ∧ Int.tdiv 128 R = 1 ∧
    columnIndex w 128 1 0 = Except.error Abort.divideByZero ∧
    create_image w 256 = Except.error Abort.divideByZero := by
  have hl : loadLen 256 = Except.ok 128 := by
    have h1 : Int.tmod 256 2 = 0 := by decide
    have h2 : Int.tdiv 256 2 = 128 := by decide
    simp [loadLen, h1, h2]
  refine ⟨hl, by decide, by simp [columnIndex], ?_⟩
  have hw : (Int.tdiv 128 R).toNat = 1 := by decide
  have hd : Int.tdiv 128 R = 1 := by decide
  simp [create_image, hl, hw, hd, column, columnIndex, List.range_succ]
  rfl

/-- C14, as stated, fails: a file of `0` bytes passes the size check and `create_image`
returns an image of width `0` (no column is computed), whereas a file of `1` byte is
fatal. -/
theorem create_image_empty_file_accepted :
    create_image 64 0 = Except.ok ⟨0, 256, []⟩ ∧
    create_image 64 0 ≠ Except.error Abort.fatal ∧
    create_image 64 1 = Except.error Abort.fatal := by
  have h0 : loadLen 0 = Except.ok 0 := by
    have h1 : Int.tmod 0 2 = 0 := by decide
    have h2 : Int.tdiv 0 2 = 0 := by decide
    simp [loadLen, h1, h2]
  have h1 : loadLen 1 = Except.error Abort.fatal := by
    have h1 : Int.tmod 1 2 = 1 := by decide
    simp [loadLen, h1]
  have hw : (Int.tdiv 0 R).toNat = 0 := by decide
  have hd : Int.tdiv 0 R = 0 := by decide
  have hh : Int.tdiv SIZE 2 = 256 := by decide
  have hc : create_image 64 0 = Except.ok ⟨0, 256, []⟩ := by
    simp [create_image, h0, hw, hd, hh]
    rfl
  refine ⟨hc, ?_, ?_⟩
  · rw [hc]
    simp
  · simp [create_image, h1]

/-- C14, amended: the load-time size validation rejects an odd byte length only: for
every odd size `create_image` fails fatally before any column is computed, while a file
of byte length `0` is accepted and yields an image of width `0` and height `256` for
which no column is computed. -/
theorem create_image_size_check (w size : ℕ) (hodd : size % 2 = 1) :
    create_image w size = Except.error Abort.fatal ∧
    create_image w 0 = Except.ok ⟨0, 256, []⟩ := by
  have hl : loadLen size = Except.error Abort.fatal := by
    have h1 : Int.tmod (size : ℤ) 2 = 1 := by
      rw [Int.tmod_eq_emod (by positivity) (by norm_num)]
      omega
    simp [loadLen, h1]
  have h0 : loadLen 0 = Except.ok 0 := by
    have h1 : Int.tmod 0 2 = 0 := by decide
    have h2 : Int.tdiv 0 2 = 0 := by decide
    simp [loadLen, h1, h2]
  have hw : (Int.tdiv 0 R).toNat = 0 := by decide
  have hd : Int.tdiv 0 R = 0 := by decide
  have hh : Int.tdiv SIZE 2 = 256 := by decide
  refine ⟨by simp [create_image, hl], ?_⟩
  simp [create_image, h0, hw, hd, hh]
  rfl

theorem create_image_size_check_witness :
    create_image 64 511 = Except.error Abort.fatal ∧
    create_image 64 0 = Except.ok ⟨0, 256, []⟩ :=
  create_image_size_check 64 511 (by decide)

theorem wrapInt_of_fits (w : ℕ) (x : ℤ) (hw : 0 < w) (h0 : 0 ≤ x) (h1 : x < 2 ^ (w - 1)) :
    wrapInt w x = x := by
  have hp : (2 : ℤ) ^ w = 2 * 2 ^ (w - 1) := by
    obtain ⟨k, rfl⟩ : ∃ k, w = k + 1 := ⟨w - 1, by omega⟩
    simp [pow_succ, mul_comm]
  have hpos : (0 : ℤ) < 2 ^ (w - 1) := by positivity
  unfold wrapInt
  rw [Int.emod_eq_of_lt (by omega) (by omega)]
  ring

theorem width_ge_four (len : ℤ) (hlen : SIZE ≤ len) : 4 ≤ Int.tdiv len R := by
  have hl : (0 : ℤ) ≤ len := le_trans (by decide) hlen
  rw [Int.tdiv_eq_ediv hl (by decide)]
  have h1 : SIZE = 512 := rfl
  have h2 : R = 128 := rfl
  rw [h1] at hlen
  rw [h2]
  omega

theorem columnIndex_eq (w : ℕ) (len i : ℤ) (hw : 0 < w) (hlen : SIZE ≤ len)
    (hfit : (len - SIZE) * (Int.tdiv len R - 1) < 2 ^ (w - 1))
    (hi0 : 0 ≤ i) (hi : i < Int.tdiv len R) :
    columnIndex w len (Int.tdiv len R) i
      = Except.ok ((len - SIZE) * i / (Int.tdiv len R - 1)) := by
  have h4 := width_ge_four len hlen
  have hd : Int.tdiv len R - 1 ≠ 0 := by omega
  have hn : 0 ≤ len - SIZE := by omega
  have hp0 : 0 ≤ (len - SIZE) * i := mul_nonneg hn hi0
  have hp1 : (len - SIZE) * i ≤ (len - SIZE) * (Int.tdiv len R - 1) :=
    mul_le_mul_of_nonneg_left (by omega) hn
  have hwr : wrapInt w ((len - SIZE) * i) = (len - SIZE) * i :=
    wrapInt_of_fits w _ hw hp0 (lt_of_le_of_lt hp1 hfit)
  unfold columnIndex
  rw [if_neg hd, hwr, Int.tdiv_eq_ediv hp0 (by omega)]

/-- C17, as stated, fails: Go's `int` is a machine integer and the product
`(len - SIZE) * i` wraps.  On a 64-bit build with `len = 2^36` the last column
(`i = width - 1 = 2^29 - 1`) gets index `-640`, not `len - SIZE`; on a 32-bit build with
`len = 2^20` column `2050` gets index `-262048`.  Both reads `buf[index]` are out of
range. -/
theorem columnIndex_overflow :
    columnIndex 64 (2 ^ 36) (Int.tdiv (2 ^ 36) R) (2 ^ 29 - 1) = Except.ok (-640) ∧
    column 64 (2 ^ 36) (Int.tdiv (2 ^ 36) R) (2 ^ 29 - 1) = Except.error Abort.indexOutOfRange ∧
    columnIndex 32 (2 ^ 20) (Int.tdiv (2 ^ 20) R) 2050 = Except.ok (-262048) ∧
    column 32 (2 ^ 20) (Int.tdiv (2 ^ 20) R) 2050 = Except.error Abort.indexOutOfRange := by
  have e1 : Int.tdiv (2 ^ 36) R = 2 ^ 29 := by decide
  have e2 : Int.tdiv (2 ^ 20) R = 8192 := by decide
  have c1 : columnIndex 64 (2 ^ 36) (2 ^ 29) (2 ^ 29 - 1) = Except.ok (-640) := by
    have hd : ¬ ((2 : ℤ) ^ 29 - 1 = 0) := by decide
    have hv : Int.tdiv (wrapInt 64 ((2 ^ 36 - SIZE) * (2 ^ 29 - 1))) (2 ^ 29 - 1) = -640 := by
      decide
    unfold columnIndex
    rw [if_neg hd, hv]
  have c2 : columnIndex 32 (2 ^ 20) 8192 2050 = Except.ok (-262048) := by
    have hd : ¬ ((8192 : ℤ) - 1 = 0) := by decide
    have hv : Int.tdiv (wrapInt 32 ((2 ^ 20 - SIZE) * 2050)) (8192 - 1) = -262048 := by
      decide
    unfold columnIndex
    rw [if_neg hd, hv]
  rw [e1, e2]
  refine ⟨c1, ?_, c2, ?_⟩
  · simp only [column, c1]
    rw [if_pos (Or.inl (by decide))]
  · simp only [column, c2]
    rw [if_pos (Or.inl (by decide))]

/-- C17, amended: for every buffer length `len ≥ SIZE = 512` for which the product
`(len - SIZE) * (width - 1)` fits Go's `w`-bit `int` (it is below `2^(w-1)`), with
`width = len / 128`, the divisor `width - 1` is not zero and every column `i` in
`0..width-1` gets a start index with `0 ≤ index ≤ len - SIZE`, so that every read
`buf[index + j]`, `0 ≤ j < SIZE`, is in bounds; the first column has index `0`, the last
one `len - SIZE`, and the index is non-decreasing in `i`. -/
theorem columnIndex_in_range (w : ℕ) (len i : ℤ) (hw : 0 < w) (hlen : SIZE ≤ len)
    (hfit : (len - SIZE) * (Int.tdiv len R - 1) < 2 ^ (w - 1))
    (hi0 : 0 ≤ i) (hi : i < Int.tdiv len R) :
    Int.tdiv len R - 1 ≠ 0 ∧
    ∃ index, columnIndex w len (Int.tdiv len R) i = Except.ok index ∧
      column w len (Int.tdiv len R) i = Except.ok index ∧
      0 ≤ index ∧ index ≤ len - SIZE ∧
      (∀ j, 0 ≤ j → j < SIZE → 0 ≤ index + j ∧ index + j < len) ∧
      (i = 0 → index = 0) ∧
      (i = Int.tdiv len R - 1 → index = len - SIZE) ∧
      (∀ i2, i ≤ i2 → i2 < Int.tdiv len R →
        ∃ index2, columnIndex w len (Int.tdiv len R) i2 = Except.ok index2 ∧ index ≤ index2) := by
  have h4 := width_ge_four len hlen
  have hd : Int.tdiv len R - 1 ≠ 0 := by omega
  have hdpos : 0 < Int.tdiv len R - 1 := by omega
  have hn : 0 ≤ len - SIZE := by omega
  have hidx := columnIndex_eq w len i hw hlen hfit hi0 hi
  have hlo : 0 ≤ (len - SIZE) * i / (Int.tdiv len R - 1) :=
    Int.ediv_nonneg (mul_nonneg hn hi0) (le_of_lt hdpos)
  have hhi : (len - SIZE) * i / (Int.tdiv len R - 1) ≤ len - SIZE := by
    have h1 : (len - SIZE) * i ≤ (len - SIZE) * (Int.tdiv len R - 1) :=
      mul_le_mul_of_nonneg_left (by omega) hn
    calc (len - SIZE) * i / (Int.tdiv len R - 1)
        ≤ (len - SIZE) * (Int.tdiv len R - 1) / (Int.tdiv len R - 1) :=
          Int.ediv_le_ediv hdpos h1
      _ = len - SIZE := Int.mul_ediv_cancel _ hd
  have hS : SIZE = 512 := rfl
  refine ⟨hd, _, hidx, ?_, hlo, hhi, ?_, ?_, ?_, ?_⟩
  · unfold column
    rw [hidx]
    have : ¬ ((len - SIZE) * i / (Int.tdiv len R - 1) < 0 ∨
        len ≤ (len - SIZE) * i / (Int.tdiv len R - 1) + (SIZE - 1)) := by omega
    simp only [if_neg this]
  · intro j hj0 hj
    omega
  · intro h0
    rw [h0]
    simp
  · intro hl
    rw [hl]
    exact Int.mul_ediv_cancel _ hd
  · intro i2 h12 h2
    refine ⟨_, columnIndex_eq w len i2 hw hlen hfit (le_trans hi0 h12) h2, ?_⟩
    exact Int.ediv_le_ediv hdpos (mul_le_mul_of_nonneg_left h12 hn)

theorem columnIndex_in_range_witness :
    Int.tdiv 1024 R - 1 ≠ 0 ∧
    ∃ index, columnIndex 64 1024 (Int.tdiv 1024 R) 3 = Except.ok index ∧
      column 64 1024 (Int.tdiv 1024 R) 3 = Except.ok index ∧
      0 ≤ index ∧ index ≤ 1024 - SIZE ∧
      (∀ j, 0 ≤ j → j < SIZE → 0 ≤ index + j ∧ index + j < 1024) ∧
      ((3 : ℤ) = 0 → index = 0) ∧
      (3 = Int.tdiv 1024 R - 1 → index = 1024 - SIZE) ∧
      (∀ i2, 3 ≤ i2 → i2 < Int.tdiv 1024 R →
        ∃ index2, columnIndex 64 1024 (Int.tdiv 1024 R) i2 = Except.ok index2 ∧ index ≤ index2) :=
  columnIndex_in_range 64 1024 3 (by decide) (by decide) (by decide) (by decide) (by decide)

/-! ## Spectrogram builder: window and frame -/

/-- C11: the window coefficients for frame length `N` are symmetric over the reals:
`window[i] = window[N-1-i]` for every `i < N`. -/
theorem window_symm (N i : ℕ) (h : i < N) : window N i = window N (N - 1 - i) := by
  by_cases hN : N = 1
  · subst hN
    have hi : i = 0 := by omega
    subst hi
    rfl
  · have hN2 : 2 ≤ N := by omega
    have hd : ((((N : ℤ) - 1 : ℤ)) : ℝ) = (N : ℝ) - 1 := by push_cast; ring
    have hd0 : (N : ℝ) - 1 ≠ 0 := by
      have : (2 : ℝ) ≤ (N : ℝ) := by exact_mod_cast hN2
      linarith
    have hc : ((N - 1 - i : ℕ) : ℝ) = (N : ℝ) - 1 - (i : ℝ) := by
      have h1 : i ≤ N - 1 := by omega
      have h2 : 1 ≤ N := by omega
      rw [Nat.cast_sub h1, Nat.cast_sub h2]
      simp
    unfold window
    rw [hd, hc]
    have harg : 2 * Real.pi * ((N : ℝ) - 1 - (i : ℝ)) / ((N : ℝ) - 1)
        = 2 * Real.pi - 2 * Real.pi * (i : ℝ) / ((N : ℝ) - 1) := by
      field_simp
      ring
    rw [harg, Real.cos_two_pi_sub]

theorem window_symm_witness : (3 : ℕ) < 512 ∧ window 512 3 = window 512 (512 - 1 - 3) :=
  ⟨by decide, window_symm 512 3 (by decide)⟩

/-- C12: every window coefficient lies in `[0,1]`, for every frame length `N` and every
index `i`. -/
theorem window_mem_unit (N i : ℕ) : 0 ≤ window N i ∧ window N i ≤ 1 := by
  have h1 := Real.neg_one_le_cos (2 * Real.pi * (i : ℝ) / (((N : ℤ) - 1 : ℤ) : ℝ))
  have h2 := Real.cos_le_one (2 * Real.pi * (i : ℝ) / (((N : ℤ) - 1 : ℤ) : ℝ))
  unfold window a0
  constructor <;> nlinarith

theorem window_zero (N : ℕ) : window N 0 = 2 / 23 := by
  unfold window a0
  simp
  norm_num

theorem getD_replicate (n v k : ℕ) (h : k < n) : (List.replicate n v).getD k 0 = v := by
  simp [List.getD_eq_getElem?_getD, List.getElem?_replicate, h]

/-- C19, as stated, fails: the constant subtracted is `2048`, not `32768`.  For a sample
equal to `32768` the frame entry is `30720 * window[0]`, which is not
`(32768 - 32768) * window[0]`. -/
theorem work_center_not_midpoint :
    center = 2048 ∧
    (work (List.replicate 512 32768) 0 0).re = 30720 * window 512 0 ∧
    (work (List.replicate 512 32768) 0 0).re ≠ ((32768 : ℝ) - 32768) * window 512 0 := by
  have h : (work (List.replicate 512 32768) 0 0).re = 30720 * window 512 0 := by
    unfold work
    rw [getD_replicate 512 32768 (0 + 0) (by decide)]
    simp only [center]
    norm_num
  refine ⟨rfl, h, ?_⟩
  rw [h, window_zero]
  norm_num

/-- C19, amended: the DC-centering constant subtracted from each sample when building an
analysis frame is `2048`:
`frame[j] = (samples[index+j] - 2048) * window[j]` with zero imaginary part. -/
theorem work_spec (buf : List ℕ) (index j : ℕ) (hin : index + j < buf.length) :
    (work buf index j).re = ((buf.get ⟨index + j, hin⟩ : ℝ) - 2048) * window 512 j ∧
    (work buf index j).im = 0 := by
  have hg : buf.getD (index + j) 0 = buf.get ⟨index + j, hin⟩ := by
    simp [List.getD_eq_getElem?_getD, List.getElem?_eq_getElem hin]
  unfold work
  rw [hg]
  exact ⟨rfl, rfl⟩

theorem work_spec_witness :
    (work [2000, 2100, 2048] 1 1).re = (((2048 : ℕ) : ℝ) - 2048) * window 512 1 ∧
    (work [2000, 2100, 2048] 1 1).im = 0 :=
  work_spec [2000, 2100, 2048] 1 1 (by decide)

theorem work_silent (n index j : ℕ) (hin : index + j < n) :
    work (List.replicate n 2048) index j = 0 := by
  unfold work
  rw [getD_replicate n 2048 (index + j) hin]
  apply Complex.ext <;> simp [center]

theorem logArg_silent (n index j : ℕ) (hin : index + 512 ≤ n) :
    logArg (List.replicate n 2048) index j = 0 := by
  have hz : FFT (work (List.replicate n 2048) index) j = 0 := by
    unfold FFT
    apply Finset.sum_eq_zero
    intro m hm
    rw [work_silent n index m (by have := Finset.mem_range.mp hm; omega)]
    simp
  simp [logArg, hz]

/-- C15, as stated, fails: for a silent frame (every sample equal to the centre constant
`2048`) the value handed to `log10` for bin `0` is `0`; it is not strictly positive. -/
theorem logArg_silent_not_pos :
    logArg (List.replicate 512 2048) 0 0 = 0 ∧ ¬ 0 < logArg (List.replicate 512 2048) 0 0 := by
  have h := logArg_silent 512 0 0 (by decide)
  exact ⟨h, by rw [h]; exact lt_irrefl 0⟩

/-- C15, amended: for a frame in which every sample equals the centre constant `2048`
every spectral bin has magnitude zero, and that zero is handed to `log10` as it is: no
floor is applied. -/
theorem logArg_silent_zero (n index j : ℕ) (hin : index + 512 ≤ n) (_hj : j < 256) :
    FFT (work (List.replicate n 2048) index) j = 0 ∧
    logArg (List.replicate n 2048) index j = 0 := by
  have h := logArg_silent n index j hin
  refine ⟨?_, h⟩
  simpa [logArg] using h

theorem logArg_silent_zero_witness :
    FFT (work (List.replicate 1024 2048) 73) 255 = 0 ∧
    logArg (List.replicate 1024 2048) 73 255 = 0 :=
  logArg_silent_zero 1024 73 255 (by decide) (by decide)

/-! ## Spectrogram builder: the transform of an alternating buffer -/

theorem abs_exp_sub_one (x : ℝ) :
    Complex.abs (Complex.exp (x * Complex.I) - 1) = 2 * |Real.sin (x / 2)| := by
  have h0 : (0 : ℝ) ≤ 2 * |Real.sin (x / 2)| := by positivity
  rw [← abs_of_nonneg h0, ← abs_of_nonneg (Complex.abs.nonneg _), ← sq_eq_sq_iff_abs_eq_abs,
    Complex.sq_abs, Complex.normSq_apply]
  have hre : (Complex.exp (x * Complex.I) - 1).re = Real.cos x - 1 := by
    simp [Complex.exp_ofReal_mul_I_re]
  have him : (Complex.exp (x * Complex.I) - 1).im = Real.sin x := by
    simp [Complex.exp_ofReal_mul_I_im]
  rw [hre, him, mul_pow, sq_abs]
  have hc : Real.cos x = 1 - 2 * Real.sin (x / 2) ^ 2 := by
    have h1 := Real.cos_two_mul (x / 2)
    have h2 := Real.sin_sq_add_cos_sq (x / 2)
    have h3 : 2 * (x / 2) = x := by ring
    rw [h3] at h1
    nlinarith
  have hs := Real.sin_sq_add_cos_sq x
  nlinarith

theorem abs_geom_sum (φ ψ : ℝ) (hφ : Real.sin (φ / 2) ≠ 0)
    (hr : Complex.exp (φ * Complex.I) ^ 512 = Complex.exp (ψ * Complex.I)) :
    Complex.abs (∑ n in Finset.range 512, Complex.exp (φ * Complex.I) ^ n)
      = |Real.sin (ψ / 2)| / |Real.sin (φ / 2)| := by
  have hne : Complex.exp (φ * Complex.I) ≠ 1 := by
    intro h
    have h1 := abs_exp_sub_one φ
    rw [h, sub_self, map_zero] at h1
    have : |Real.sin (φ / 2)| = 0 := by linarith
    exact hφ (abs_eq_zero.mp this)
  rw [geom_sum_eq hne, hr, map_div₀, abs_exp_sub_one, abs_exp_sub_one]
  have : |Real.sin (φ / 2)| ≠ 0 := abs_ne_zero.mpr hφ
  field_simp
  ring

theorem window_complex (n : ℕ) :
    ((window 512 n : ℝ) : ℂ) = (a0 : ℂ) - ((1 - a0) / 2 : ℝ) *
      (Complex.exp ((2 * Real.pi / 511 : ℝ) * Complex.I) ^ n
        + Complex.exp ((-(2 * Real.pi / 511) : ℝ) * Complex.I) ^ n) := by
  have hd : ((((512 : ℕ) : ℤ) - 1 : ℤ) : ℝ) = 511 := by norm_num
  unfold window
  rw [hd]
  rw [← Complex.exp_nat_mul, ← Complex.exp_nat_mul]
  push_cast
  rw [Complex.cos]
  have e1 : (2 * (Real.pi : ℂ) * (n : ℂ) / 511) * Complex.I
      = (n : ℂ) * (2 * (Real.pi : ℂ) / 511 * Complex.I) := by ring
  have e2 : -(2 * (Real.pi : ℂ) * (n : ℂ) / 511) * Complex.I
      = (n : ℂ) * (-(2 * (Real.pi : ℂ) / 511) * Complex.I) := by ring
  rw [e1, e2]
  ring

theorem windowSum_eq (θ : ℝ) :
    windowSum θ = (a0 : ℂ) * geomSum θ - ((1 - a0) / 2 : ℝ) *
      (geomSum (θ + 2 * Real.pi / 511) + geomSum (θ - 2 * Real.pi / 511)) := by
  unfold windowSum geomSum
  rw [Finset.mul_sum, ← Finset.sum_add_distrib, Finset.mul_sum, ← Finset.sum_sub_distrib]
  apply Finset.sum_congr rfl
  intro n _
  rw [window_complex n]
  have p1 : Complex.exp (((θ + 2 * Real.pi / 511 : ℝ) : ℂ) * Complex.I)
      = Complex.exp ((2 * Real.pi / 511 : ℝ) * Complex.I) * Complex.exp (θ * Complex.I) := by
    rw [← Complex.exp_add]
    congr 1
    push_cast
    ring
  have p2 : Complex.exp (((θ - 2 * Real.pi / 511 : ℝ) : ℂ) * Complex.I)
      = Complex.exp ((-(2 * Real.pi / 511) : ℝ) * Complex.I) * Complex.exp (θ * Complex.I) := by
    rw [← Complex.exp_add]
    congr 1
    push_cast
    ring
  rw [p1, p2, mul_pow, mul_pow]
  ring

theorem exp_pow_512 (m : ℤ) (ψ : ℝ) :
    Complex.exp (((2 * Real.pi * m / 512 + ψ / 512 : ℝ) : ℂ) * Complex.I) ^ 512
      = Complex.exp (ψ * Complex.I) := by
  rw [← Complex.exp_nat_mul]
  have e : ((512 : ℕ) : ℂ) * (((2 * Real.pi * m / 512 + ψ / 512 : ℝ) : ℂ) * Complex.I)
      = (ψ : ℂ) * Complex.I + (m : ℂ) * (2 * Real.pi * Complex.I) := by
    push_cast
    ring
  rw [e, Complex.exp_add, Complex.exp_int_mul_two_pi_mul_I, mul_one]

theorem sin_alpha_add (m : ℕ) (h1 : 1 ≤ m) (h2 : m ≤ 256) :
    1 / 128 ≤ Real.sin (Real.pi * m / 512 + Real.pi / 511) := by
  have hpi := Real.pi_pos
  have hm1 : (1 : ℝ) ≤ m := by exact_mod_cast h1
  have hm2 : (m : ℝ) ≤ 256 := by exact_mod_cast h2
  by_cases hc : Real.pi * m / 512 + Real.pi / 511 ≤ Real.pi / 2
  · have h := Real.mul_le_sin (x := Real.pi * m / 512 + Real.pi / 511) (by positivity) hc
    have e : 2 / Real.pi * (Real.pi * m / 512 + Real.pi / 511) = 2 * ((m : ℝ) / 512 + 1 / 511) := by
      field_simp
      ring
    rw [e] at h
    linarith
  · push_neg at hc
    have hs : Real.sin (Real.pi * m / 512 + Real.pi / 511)
        = Real.sin (Real.pi - (Real.pi * m / 512 + Real.pi / 511)) := (Real.sin_pi_sub _).symm
    rw [hs]
    have hx0 : 0 ≤ Real.pi - (Real.pi * m / 512 + Real.pi / 511) := by nlinarith
    have hx1 : Real.pi - (Real.pi * m / 512 + Real.pi / 511) ≤ Real.pi / 2 := by linarith
    have h := Real.mul_le_sin hx0 hx1
    have e : 2 / Real.pi * (Real.pi - (Real.pi * m / 512 + Real.pi / 511))
        = 2 * (1 - ((m : ℝ) / 512 + 1 / 511)) := by
      field_simp
      ring
    rw [e] at h
    linarith

theorem sin_alpha_sub (m : ℕ) (h1 : 2 ≤ m) (h2 : m ≤ 256) :
    1 / 257 ≤ Real.sin (Real.pi * m / 512 - Real.pi / 511) := by
  have hpi := Real.pi_pos
  have hm1 : (2 : ℝ) ≤ m := by exact_mod_cast h1
  have hm2 : (m : ℝ) ≤ 256 := by exact_mod_cast h2
  have hx0 : 0 ≤ Real.pi * m / 512 - Real.pi / 511 := by nlinarith
  have hx1 : Real.pi * m / 512 - Real.pi / 511 ≤ Real.pi / 2 := by nlinarith
  have h := Real.mul_le_sin hx0 hx1
  have e : 2 / Real.pi * (Real.pi * m / 512 - Real.pi / 511) = 2 * ((m : ℝ) / 512 - 1 / 511) := by
    field_simp
    ring
  rw [e] at h
  linarith

theorem sin_alpha_sub_one :
    Real.sin (Real.pi * (1 : ℕ) / 512 - Real.pi / 511) < 0 ∧
    |Real.sin (Real.pi * (1 : ℕ) / 512 - Real.pi / 511)| ≤ 1 / 65408 := by
  have hpi := Real.pi_pos
  have hpi4 := Real.pi_le_four
  have hneg : Real.pi * (1 : ℕ) / 512 - Real.pi / 511 = -(Real.pi / 261632) := by
    push_cast
    ring
  rw [hneg, Real.sin_neg, abs_neg]
  have hpos : 0 < Real.sin (Real.pi / 261632) :=
    Real.sin_pos_of_pos_of_lt_pi (by positivity) (by linarith)
  refine ⟨by linarith, ?_⟩
  rw [abs_of_pos hpos]
  have := Real.sin_le (x := Real.pi / 261632) (by positivity)
  linarith

theorem abs_geomSum (m : ℤ) (ψ φ : ℝ) (hφ : φ = 2 * Real.pi * m / 512 + ψ / 512)
    (hs : Real.sin (φ / 2) ≠ 0) :
    Complex.abs (geomSum φ) = |Real.sin (ψ / 2)| / |Real.sin (φ / 2)| := by
  unfold geomSum
  apply abs_geom_sum φ ψ hs
  rw [hφ]
  exact exp_pow_512 m ψ

theorem sin_eps_pos : 0 < Real.sin (Real.pi / 511) :=
  Real.sin_pos_of_pos_of_lt_pi (by positivity) (by linarith [Real.pi_pos])

theorem sin_eps_ge : 2 / 511 ≤ Real.sin (Real.pi / 511) := by
  have hpi := Real.pi_pos
  have h := Real.mul_le_sin (x := Real.pi / 511) (by positivity) (by linarith)
  have e : 2 / Real.pi * (Real.pi / 511) = 2 / 511 := by
    field_simp
  rw [e] at h
  exact h

theorem geomSum_zero (m : ℕ) (h1 : 1 ≤ m) (h2 : m ≤ 256) :
    geomSum (2 * Real.pi * m / 512) = 0 := by
  have hpi := Real.pi_pos
  have hm1 : (1 : ℝ) ≤ m := by exact_mod_cast h1
  have hm2 : (m : ℝ) ≤ 256 := by exact_mod_cast h2
  have hs : 0 < Real.sin (2 * Real.pi * m / 512 / 2) :=
    Real.sin_pos_of_pos_of_lt_pi (by positivity) (by nlinarith)
  have h := abs_geomSum (m : ℤ) 0 (2 * Real.pi * m / 512) (by push_cast; ring) (ne_of_gt hs)
  simpa using h

theorem abs_geomSum_add (m : ℕ) (h1 : 1 ≤ m) (h2 : m ≤ 256) :
    Complex.abs (geomSum (2 * Real.pi * m / 512 + 2 * Real.pi / 511))
      ≤ 128 * Real.sin (Real.pi / 511) := by
  have hb := sin_alpha_add m h1 h2
  have hhalf : (2 * Real.pi * m / 512 + 2 * Real.pi / 511) / 2
      = Real.pi * m / 512 + Real.pi / 511 := by ring
  have hpos : 0 < Real.sin ((2 * Real.pi * m / 512 + 2 * Real.pi / 511) / 2) := by
    rw [hhalf]; linarith
  have h := abs_geomSum ((m : ℤ) + 1) (2 * Real.pi / 511)
    (2 * Real.pi * m / 512 + 2 * Real.pi / 511) (by push_cast; ring) (ne_of_gt hpos)
  have hpsi : 2 * Real.pi / 511 / 2 = Real.pi / 511 := by ring
  rw [h, hpsi, hhalf, abs_of_pos sin_eps_pos, abs_of_pos (by linarith : 0 < Real.sin (Real.pi * m / 512 + Real.pi / 511))]
  rw [div_le_iff₀ (by linarith)]
  nlinarith [sin_eps_pos]

theorem abs_geomSum_sub (m : ℕ) (h1 : 2 ≤ m) (h2 : m ≤ 256) :
    Complex.abs (geomSum (2 * Real.pi * m / 512 - 2 * Real.pi / 511))
      ≤ 257 * Real.sin (Real.pi / 511) := by
  have hb := sin_alpha_sub m h1 h2
  have hhalf : (2 * Real.pi * m / 512 - 2 * Real.pi / 511) / 2
      = Real.pi * m / 512 - Real.pi / 511 := by ring
  have hpos : 0 < Real.sin ((2 * Real.pi * m / 512 - 2 * Real.pi / 511) / 2) := by
    rw [hhalf]; linarith
  have h := abs_geomSum ((m : ℤ) - 1) (-(2 * Real.pi / 511))
    (2 * Real.pi * m / 512 - 2 * Real.pi / 511) (by push_cast; ring) (ne_of_gt hpos)
  have hpsi : -(2 * Real.pi / 511) / 2 = -(Real.pi / 511) := by ring
  rw [h, hpsi, hhalf, Real.sin_neg, abs_neg, abs_of_pos sin_eps_pos,
    abs_of_pos (by linarith : 0 < Real.sin (Real.pi * m / 512 - Real.pi / 511))]
  rw [div_le_iff₀ (by linarith)]
  nlinarith [sin_eps_pos]

theorem abs_geomSum_sub_one :
    65408 * Real.sin (Real.pi / 511)
      ≤ Complex.abs (geomSum (2 * Real.pi * (1 : ℕ) / 512 - 2 * Real.pi / 511)) := by
  obtain ⟨hneg, hb⟩ := sin_alpha_sub_one
  have hhalf : (2 * Real.pi * (1 : ℕ) / 512 - 2 * Real.pi / 511) / 2
      = Real.pi * (1 : ℕ) / 512 - Real.pi / 511 := by ring
  have hne : Real.sin ((2 * Real.pi * (1 : ℕ) / 512 - 2 * Real.pi / 511) / 2) ≠ 0 := by
    rw [hhalf]; exact ne_of_lt hneg
  have h := abs_geomSum 0 (-(2 * Real.pi / 511))
    (2 * Real.pi * (1 : ℕ) / 512 - 2 * Real.pi / 511) (by push_cast; ring) hne
  have hpsi : -(2 * Real.pi / 511) / 2 = -(Real.pi / 511) := by ring
  rw [h, hpsi, hhalf, Real.sin_neg, abs_neg, abs_of_pos sin_eps_pos]
  have habs : 0 < |Real.sin (Real.pi * (1 : ℕ) / 512 - Real.pi / 511)| :=
    abs_pos.mpr (ne_of_lt hneg)
  rw [le_div_iff₀ habs]
  nlinarith [sin_eps_pos]

theorem abs_windowSum_le (m : ℕ) (h1 : 2 ≤ m) (h2 : m ≤ 256) :
    Complex.abs (windowSum (2 * Real.pi * m / 512)) ≤ 21 / 92 * (385 * Real.sin (Real.pi / 511)) := by
  have ha := abs_geomSum_add m (by omega) h2
  have hs := abs_geomSum_sub m h1 h2
  rw [windowSum_eq, geomSum_zero m (by omega) h2, mul_zero, zero_sub, map_neg_eq_map, map_mul,
    Complex.abs_ofReal]
  have hc : |(1 - a0) / 2| = 21 / 92 := by
    unfold a0; norm_num [abs_of_pos]
  rw [hc]
  have ht := Complex.abs.add_le (geomSum (2 * Real.pi * m / 512 + 2 * Real.pi / 511))
    (geomSum (2 * Real.pi * m / 512 - 2 * Real.pi / 511))
  have : Complex.abs (geomSum (2 * Real.pi * m / 512 + 2 * Real.pi / 511)
      + geomSum (2 * Real.pi * m / 512 - 2 * Real.pi / 511)) ≤ 385 * Real.sin (Real.pi / 511) := by
    linarith
  exact mul_le_mul_of_nonneg_left this (by norm_num)

theorem abs_windowSum_one :
    21 / 92 * (65280 * Real.sin (Real.pi / 511))
      ≤ Complex.abs (windowSum (2 * Real.pi * (1 : ℕ) / 512)) := by
  have ha := abs_geomSum_add 1 (le_refl 1) (by norm_num)
  have hs := abs_geomSum_sub_one
  rw [windowSum_eq, geomSum_zero 1 (le_refl 1) (by norm_num), mul_zero, zero_sub,
    map_neg_eq_map, map_mul, Complex.abs_ofReal]
  have hc : |(1 - a0) / 2| = 21 / 92 := by
    unfold a0; norm_num [abs_of_pos]
  rw [hc]
  have ht := Complex.abs.le_add (geomSum (2 * Real.pi * (1 : ℕ) / 512 - 2 * Real.pi / 511))
    (geomSum (2 * Real.pi * (1 : ℕ) / 512 + 2 * Real.pi / 511))
  have : 65280 * Real.sin (Real.pi / 511)
      ≤ Complex.abs (geomSum (2 * Real.pi * (1 : ℕ) / 512 + 2 * Real.pi / 511)
      + geomSum (2 * Real.pi * (1 : ℕ) / 512 - 2 * Real.pi / 511)) := by
    rw [add_comm (geomSum (2 * Real.pi * (1 : ℕ) / 512 + 2 * Real.pi / 511))]
    linarith
  exact mul_le_mul_of_nonneg_left this (by norm_num)

theorem work_tone (A index n : ℕ) (hA : A ≤ 2048) (hin : index + n < 1024) :
    work (tone A 1024) index n
      = (((-1 : ℝ) ^ (index + n + 1) * A * window 512 n : ℝ) : ℂ) := by
  have hg : (tone A 1024).getD (index + n) 0
      = if (index + n) % 2 = 0 then 2048 - A else 2048 + A := by
    simp [tone, List.getD_eq_getElem?_getD, List.getElem?_map, List.getElem?_range hin]
  unfold work
  rw [hg]
  apply Complex.ext
  · simp only [Complex.ofReal_re, center]
    by_cases hp : (index + n) % 2 = 0
    · have hev : Even (index + n) := Nat.even_iff.mpr hp
      rw [if_pos hp, pow_succ, hev.neg_one_pow, Nat.cast_sub hA]
      push_cast
      ring
    · have hod : Odd (index + n) := Nat.odd_iff.mpr (by omega)
      rw [if_neg hp, pow_succ, hod.neg_one_pow]
      push_cast
      ring
  · exact (Complex.ofReal_im _).symm

theorem exp_theta_pow (k n : ℕ) (hk : k < 256) :
    Complex.exp (((2 * Real.pi * ((256 - k : ℕ) : ℝ) / 512 : ℝ) : ℂ) * Complex.I) ^ n
      = (-1) ^ n * Complex.exp (-(2 * Real.pi * k * n / 512 : ℝ) * Complex.I) := by
  have hc : ((256 - k : ℕ) : ℝ) = 256 - (k : ℝ) := by
    rw [Nat.cast_sub (le_of_lt hk)]
    norm_num
  have e : ((2 * Real.pi * ((256 - k : ℕ) : ℝ) / 512 : ℝ) : ℂ) * Complex.I
      = Real.pi * Complex.I + (-(2 * Real.pi * k / 512 : ℝ)) * Complex.I := by
    rw [hc]
    push_cast
    ring
  rw [e, Complex.exp_add, Complex.exp_pi_mul_I, mul_pow, ← Complex.exp_nat_mul]
  congr 2
  push_cast
  ring

theorem FFT_tone (A index k : ℕ) (hA : A ≤ 2048) (hin : index + 512 ≤ 1024) (hk : k < 256) :
    FFT (work (tone A 1024) index) k
      = (((-1 : ℝ) ^ (index + 1) * A : ℝ) : ℂ) * windowSum (2 * Real.pi * ((256 - k : ℕ) : ℝ) / 512) := by
  unfold FFT windowSum
  rw [Finset.mul_sum]
  apply Finset.sum_congr rfl
  intro n hn
  have hn2 : n < 512 := Finset.mem_range.mp hn
  rw [work_tone A index n hA (by omega), exp_theta_pow k n hk]
  push_cast
  ring

theorem logArg_tone (A index k : ℕ) (hA : A ≤ 2048) (hin : index + 512 ≤ 1024) (hk : k < 256) :
    logArg (tone A 1024) index k
      = A * Complex.abs (windowSum (2 * Real.pi * ((256 - k : ℕ) : ℝ) / 512)) := by
  unfold logArg
  rw [FFT_tone A index k hA hin hk, map_mul, Complex.abs_ofReal]
  congr 1
  rw [abs_mul, abs_pow, abs_neg, abs_one, one_pow, one_mul]
  exact abs_of_nonneg (Nat.cast_nonneg A)

theorem logArg_tone_le (A index j : ℕ) (hA : A ≤ 2048) (hin : index + 512 ≤ 1024) (hj : j < 256) :
    logArg (tone A 1024) index j ≤ logArg (tone A 1024) index 255 := by
  rw [logArg_tone A index j hA hin hj, logArg_tone A index 255 hA hin (by norm_num)]
  apply mul_le_mul_of_nonneg_left _ (Nat.cast_nonneg A)
  by_cases h : j = 255
  · subst h
    exact le_refl _
  · have h1 := abs_windowSum_le (256 - j) (by omega) (by omega)
    have h2 := abs_windowSum_one
    have hs := sin_eps_pos
    have e : (256 - 255 : ℕ) = 1 := rfl
    rw [e]
    linarith

theorem logArg_tone_peak_ge (A index : ℕ) (hA0 : 0 < A) (hA : A ≤ 2048) (hin : index + 512 ≤ 1024) :
    1 ≤ logArg (tone A 1024) index 255 := by
  rw [logArg_tone A index 255 hA hin (by norm_num)]
  have e : (256 - 255 : ℕ) = 1 := rfl
  rw [e]
  have h2 := abs_windowSum_one
  have hs := sin_eps_ge
  have hA1 : (1 : ℝ) ≤ A := by exact_mod_cast hA0
  have hw : (1 : ℝ) ≤ Complex.abs (windowSum (2 * Real.pi * ((1 : ℕ) : ℝ) / 512)) := by
    linarith
  calc (1 : ℝ) = 1 * 1 := by norm_num
    _ ≤ A * Complex.abs (windowSum (2 * Real.pi * ((1 : ℕ) : ℝ) / 512)) :=
      mul_le_mul hA1 hw (by norm_num) (by linarith)

theorem ang_tone_le (A index j : ℕ) (hA0 : 0 < A) (hA : A ≤ 2048) (hin : index + 512 ≤ 1024)
    (hj : j < 256) :
    ang (tone A 1024) index j ≤ ang (tone A 1024) index 255 := by
  have hle := logArg_tone_le A index j hA hin hj
  have hp := logArg_tone_peak_ge A index hA0 hA hin
  have h0 : 0 ≤ logArg (tone A 1024) index j := Complex.abs.nonneg _
  have hlog : Real.logb 10 (logArg (tone A 1024) index j)
      ≤ Real.logb 10 (logArg (tone A 1024) index 255) := by
    rcases eq_or_lt_of_le h0 with h | h
    · rw [← h, Real.logb_zero]
      exact Real.logb_nonneg (by norm_num) hp
    · exact (Real.logb_le_logb (by norm_num) h (by linarith)).mpr hle
  unfold ang
  apply div_le_div_of_nonneg_right _ (by norm_num)
  linarith

theorem logArg_tone_lt (A index j : ℕ) (hA0 : 0 < A) (hA : A ≤ 2048)
    (hin : index + 512 ≤ 1024) (hj : j < 255) :
    logArg (tone A 1024) index j < logArg (tone A 1024) index 255 := by
  rw [logArg_tone A index j hA hin (by omega), logArg_tone A index 255 hA hin (by norm_num)]
  have hApos : (0 : ℝ) < A := by exact_mod_cast hA0
  apply mul_lt_mul_of_pos_left _ hApos
  have h1 := abs_windowSum_le (256 - j) (by omega) (by omega)
  have h2 := abs_windowSum_one
  have hs := sin_eps_pos
  have e : (256 - 255 : ℕ) = 1 := rfl
  rw [e]
  linarith

theorem column_eq (w : ℕ) (len i : ℤ) (hw : 0 < w) (hlen : SIZE ≤ len)
    (hfit : (len - SIZE) * (Int.tdiv len R - 1) < 2 ^ (w - 1))
    (hi0 : 0 ≤ i) (hi : i < Int.tdiv len R) :
    column w len (Int.tdiv len R) i = Except.ok ((len - SIZE) * i / (Int.tdiv len R - 1)) ∧
    0 ≤ (len - SIZE) * i / (Int.tdiv len R - 1) ∧
    (len - SIZE) * i / (Int.tdiv len R - 1) ≤ len - SIZE := by
  have h4 := width_ge_four len hlen
  have hd : Int.tdiv len R - 1 ≠ 0 := by omega
  have hdpos : 0 < Int.tdiv len R - 1 := by omega
  have hn : 0 ≤ len - SIZE := by omega
  have hlo : 0 ≤ (len - SIZE) * i / (Int.tdiv len R - 1) :=
    Int.ediv_nonneg (mul_nonneg hn hi0) (le_of_lt hdpos)
  have hhi : (len - SIZE) * i / (Int.tdiv len R - 1) ≤ len - SIZE := by
    have h1 : (len - SIZE) * i ≤ (len - SIZE) * (Int.tdiv len R - 1) :=
      mul_le_mul_of_nonneg_left (by omega) hn
    calc (len - SIZE) * i / (Int.tdiv len R - 1)
        ≤ (len - SIZE) * (Int.tdiv len R - 1) / (Int.tdiv len R - 1) :=
          Int.ediv_le_ediv hdpos h1
      _ = len - SIZE := Int.mul_ediv_cancel _ hd
  have hS : SIZE = 512 := rfl
  refine ⟨?_, hlo, hhi⟩
  unfold column
  rw [columnIndex_eq w len i hw hlen hfit hi0 hi]
  have : ¬ ((len - SIZE) * i / (Int.tdiv len R - 1) < 0 ∨
      len ≤ (len - SIZE) * i / (Int.tdiv len R - 1) + (SIZE - 1)) := by omega
  simp only [if_neg this]

/-- C16: for every amplitude `A > 0` with `2048 - A` and `2048 + A` representable, and a
buffer of `2 * SIZE = 1024` samples alternating between `2048 - A` and `2048 + A`, every
column `i` of the spectrogram has a start index, and in that column the magnitude of
every rendered bin `0..255` is at most, and for bins `0..254` strictly below, that of
bin `255 = SIZE/2 - 1`; the same holds for the intensity `ang`; bin `255` is stored in
pixel row `0`.  The transform is the discrete Fourier transform, over the reals. -/
theorem tone_peak_at_top_row (w A i : ℕ) (hw : 32 ≤ w) (hA0 : 0 < A) (hA : A ≤ 2048)
    (hi : (i : ℤ) < Int.tdiv 1024 R) :
    ∃ index : ℕ, column w 1024 (Int.tdiv 1024 R) i = Except.ok (index : ℤ) ∧
      (∀ j, j < 256 → logArg (tone A 1024) index j ≤ logArg (tone A 1024) index 255) ∧
      (∀ j, j < 255 → logArg (tone A 1024) index j < logArg (tone A 1024) index 255) ∧
      (∀ j, j < 256 → ang (tone A 1024) index j ≤ ang (tone A 1024) index 255) ∧
      pixelRow 255 = 0 := by
  have hfit : ((1024 : ℤ) - SIZE) * (Int.tdiv 1024 R - 1) < 2 ^ (w - 1) := by
    have h1 : ((1024 : ℤ) - SIZE) * (Int.tdiv 1024 R - 1) < 2 ^ 31 := by decide
    have h2 : (2 : ℤ) ^ 31 ≤ 2 ^ (w - 1) := pow_le_pow_right₀ (by norm_num) (by omega)
    exact lt_of_lt_of_le h1 h2
  obtain ⟨hc, hlo, hhi⟩ := column_eq w 1024 (i : ℤ) (by omega) (by decide) hfit
    (Int.natCast_nonneg i) hi
  have hS : SIZE = 512 := rfl
  refine ⟨(((1024 : ℤ) - SIZE) * (i : ℤ) / (Int.tdiv 1024 R - 1)).toNat, ?_, ?_, ?_, ?_, ?_⟩
  · rw [Int.toNat_of_nonneg hlo]
    exact hc
  · intro j hj
    exact logArg_tone_le A _ j hA (by omega) hj
  · intro j hj
    exact logArg_tone_lt A _ j hA0 hA (by omega) hj
  · intro j hj
    exact ang_tone_le A _ j hA0 hA (by omega) hj
  · decide

theorem tone_peak_at_top_row_witness :
    ∃ index : ℕ, column 64 1024 (Int.tdiv 1024 R) (3 : ℕ) = Except.ok (index : ℤ) ∧
      (∀ j, j < 256 → logArg (tone 100 1024) index j ≤ logArg (tone 100 1024) index 255) ∧
      (∀ j, j < 255 → logArg (tone 100 1024) index j < logArg (tone 100 1024) index 255) ∧
      (∀ j, j < 256 → ang (tone 100 1024) index j ≤ ang (tone 100 1024) index 255) ∧
      pixelRow 255 = 0 :=
  tone_peak_at_top_row 64 100 3 (by decide) (by decide) (by decide) (by decide)

end BatDesktop
